import Mathlib

/-!
Verification of the Sports-Betting-Predictor pipeline.

The backend (Flask `get_matchups`) reads three per-model prediction tables,
inner-joins them with pandas on the columns `Home` and `Visitor`, and rounds
each probability column with `round(x * 100, 2)`.  The frontend
(`MatchupList.js`) partitions the merged sequence into weeks with
`groupMatchupsByWeek`, slicing according to the hard-coded table
`weekMatchupCounts`.

Probabilities are modelled as exact rationals (`ℚ`); Python's `round` is
round-half-to-even, modelled by `rndHalfEven`.  A pandas inner merge keeps,
for each left row in order, every matching right row in order, which is what
`mergeRfGb` / `mergeWithLogReg` implement.
-/

/-- One row of a per-model prediction CSV after column selection:
`Home`, `Visitor` and the model's probability column. -/
structure PredRow where
  home : String
  visitor : String
  prob : ℚ
  deriving DecidableEq, Repr

/-- A row of the intermediate table `df_rf.merge(df_gb, on=['Home', 'Visitor'])`. -/
structure Merged2 where
  home : String
  visitor : String
  rf : ℚ
  gb : ℚ
  deriving DecidableEq, Repr

/-- A row of the fully merged table: `Home`, `Visitor` and the three
model probability columns. -/
structure Matchup where
  home : String
  visitor : String
  rf : ℚ
  gb : ℚ
  logreg : ℚ
  deriving DecidableEq, Repr

/-- The MatchupKey of a prediction row: the ordered pair (home, visitor). -/
def rowKey (r : PredRow) : String × String := (r.home, r.visitor)

/-- The MatchupKey of an intermediate merged row. -/
def m2Key (a : Merged2) : String × String := (a.home, a.visitor)

/-- The MatchupKey of a fully merged matchup. -/
def matchKey (m : Matchup) : String × String := (m.home, m.visitor)

/-- The pandas join predicate: a right-hand row matches when both key
columns are equal (exact, case-sensitive string equality). -/
def pMatch (h v : String) (b : PredRow) : Bool :=
  decide (h = b.home ∧ v = b.visitor)

/-- The first pandas merge, `df_rf.merge(df_gb, on=['Home', 'Visitor'])`:
an inner join that keeps, for each RF row in order, every matching GB row. -/
def mergeRfGb (rf gb : List PredRow) : List Merged2 :=
  rf.flatMap fun a =>
    (gb.filter (pMatch a.home a.visitor)).map fun b =>
      { home := a.home, visitor := a.visitor, rf := a.prob, gb := b.prob }

/-- The second pandas merge, `.merge(df_logreg, on=['Home', 'Visitor'])`. -/
def mergeWithLogReg (ms : List Merged2) (lr : List PredRow) : List Matchup :=
  ms.flatMap fun a =>
    (lr.filter (pMatch a.home a.visitor)).map fun b =>
      { home := a.home, visitor := a.visitor, rf := a.rf, gb := a.gb,
        logreg := b.prob }

/-- The merged table `merged_df` of `get_matchups`. -/
def merged_df (rf gb lr : List PredRow) : List Matchup :=
  mergeWithLogReg (mergeRfGb rf gb) lr

/-- Round a rational to the nearest integer, ties to even: the semantics of
Python's built-in `round` (idealised over exact rationals). -/
def rndHalfEven (q : ℚ) : ℤ :=
  if Int.fract q < 1 / 2 then ⌊q⌋
  else if 1 / 2 < Int.fract q then ⌊q⌋ + 1
  else if ⌊q⌋ % 2 = 0 then ⌊q⌋ else ⌊q⌋ + 1

/-- Python's `round(x, 2)`: round to two decimal places, ties to even. -/
def pyRound2 (x : ℚ) : ℚ := (rndHalfEven (x * 100) : ℚ) / 100

/-- The per-column lambda of `get_matchups`: `lambda x: round(x * 100, 2)`. -/
def normalizeScore (x : ℚ) : ℚ := pyRound2 (x * 100)

/-- Modelled from the spec's words (for the refinement comparison of the
normaliser): "produce a percentage ... rounded to exactly 2 decimal places",
"round(p*100, 2)", "the scale factor is exactly ×100", ties to even. -/
def spec_normalize (p : ℚ) : ℚ := (rndHalfEven (p * 100 * 10 ^ 2) : ℚ) / 10 ^ 2

/-- The three column-wise `apply` calls of `get_matchups`: each probability
column is rounded independently. -/
def normalizeRow (m : Matchup) : Matchup :=
  { m with rf := normalizeScore m.rf, gb := normalizeScore m.gb,
           logreg := normalizeScore m.logreg }

/-- The whole backend pipeline of `get_matchups`: merge, then round each of
the three probability columns. -/
def get_matchups (rf gb lr : List PredRow) : List Matchup :=
  (merged_df rf gb lr).map normalizeRow

/-- The hard-coded per-week matchup count table of `MatchupList.js`. -/
def weekMatchupCounts : List ℕ :=
  [16, 16, 16, 16, 14, 14, 15, 16, 15, 14, 14, 13, 16, 13, 16, 16, 16, 16]

/-- A week object `{ week: weekIndex + 1, matchups: ... }`. -/
structure Week where
  week : ℕ
  matchups : List Matchup
  deriving DecidableEq, Repr

/-- The `forEach` loop of `groupMatchupsByWeek`, recursing over the count
table and carrying `startIndex` and the 0-based week index.  JavaScript's
`matchups.slice(startIndex, startIndex + count)` is `(drop startIndex).take
count`. -/
def groupGo (matchups : List Matchup) : List ℕ → ℕ → ℕ → List Week
  | [], _, _ => []
  | c :: cs, startIndex, weekIndex =>
    { week := weekIndex + 1, matchups := (matchups.drop startIndex).take c } ::
      groupGo matchups cs (startIndex + c) (weekIndex + 1)

/-- `groupMatchupsByWeek` generalised over the count table. -/
def groupMatchupsByWeekGen (counts : List ℕ) (matchups : List Matchup) :
    List Week :=
  groupGo matchups counts 0 0

/-- The `groupMatchupsByWeek` of `MatchupList.js`, with its hard-coded
`weekMatchupCounts`. -/
def groupMatchupsByWeek (matchups : List Matchup) : List Week :=
  groupMatchupsByWeekGen weekMatchupCounts matchups

/-- The expected week lengths: each week takes `min count remaining`
matchups from what is left. -/
def minLens : List ℕ → ℕ → List ℕ
  | [], _ => []
  | c :: cs, n => min c n :: minLens cs (n - c)

/-- State-passing model of `Array.prototype.slice` for the frame property:
`slice` reads the array and returns it unchanged together with the extracted
copy. -/
def sliceOp (arr : List Matchup) (s e : ℕ) : List Matchup × List Matchup :=
  (arr, (arr.drop s).take (e - s))

/-- State-passing version of the `forEach` loop: the input array is threaded
through every `slice` call, so mutation of the input would be visible in the
first component. -/
def groupGoSt : List Matchup → List ℕ → ℕ → ℕ → List Matchup × List Week
  | arr, [], _, _ => (arr, [])
  | arr, c :: cs, startIndex, weekIndex =>
    let res := sliceOp arr startIndex (startIndex + c)
    let rest := groupGoSt res.1 cs (startIndex + c) (weekIndex + 1)
    (rest.1, { week := weekIndex + 1, matchups := res.2 } :: rest.2)

/-- State-passing version of `groupMatchupsByWeek`. -/
def groupMatchupsByWeekSt (matchups : List Matchup) :
    List Matchup × List Week :=
  groupGoSt matchups weekMatchupCounts 0 0

/-! ### Lemmas about the week partitioner -/

theorem groupGo_map_len (xs : List Matchup) :
    ∀ (counts : List ℕ) (start wk : ℕ),
      (groupGo xs counts start wk).map (fun w => w.matchups.length) =
        minLens counts (xs.length - start) := by
  intro counts
  induction counts with
  | nil => intro start wk; rfl
  | cons c cs ih =>
    intro start wk
    simp [groupGo, minLens, ih, Nat.sub_sub]

theorem groupGo_map_week (xs : List Matchup) :
    ∀ (counts : List ℕ) (start wk : ℕ),
      (groupGo xs counts start wk).map (fun w => w.week) =
        List.range' (wk + 1) counts.length := by
  intro counts
  induction counts with
  | nil => intro start wk; rfl
  | cons c cs ih =>
    intro start wk
    simp [groupGo, ih, List.range'_succ]

theorem groupGo_join (xs : List Matchup) :
    ∀ (counts : List ℕ) (start wk : ℕ),
      ((groupGo xs counts start wk).map (fun w => w.matchups)).flatten =
        (xs.drop start).take counts.sum := by
  intro counts
  induction counts with
  | nil => intro start wk; simp [groupGo]
  | cons c cs ih =>
    intro start wk
    simp only [groupGo, List.map_cons, List.flatten_cons, ih, List.sum_cons]
    rw [List.take_add, List.drop_drop]

theorem groupGo_get_empty (xs : List Matchup) :
    ∀ (counts : List ℕ) (start wk i : ℕ) (w : Week),
      (groupGo xs counts start wk)[i]? = some w →
      xs.length ≤ start + (counts.take i).sum → w.matchups = [] := by
  intro counts
  induction counts with
  | nil => intro start wk i w h _; simp [groupGo] at h
  | cons c cs ih =>
    intro start wk i w h hle
    cases i with
    | zero =>
      simp only [groupGo, List.getElem?_cons_zero, Option.some.injEq] at h
      subst h
      simp only [List.take_zero, List.sum_nil, Nat.add_zero] at hle
      simp [List.drop_eq_nil_of_le hle]
    | succ i =>
      simp only [groupGo, List.getElem?_cons_succ] at h
      refine ih (start + c) (wk + 1) i w h ?_
      simpa [Nat.add_assoc] using hle

theorem groupGoSt_eq (arr : List Matchup) :
    ∀ (counts : List ℕ) (start wk : ℕ),
      groupGoSt arr counts start wk = (arr, groupGo arr counts start wk) := by
  intro counts
  induction counts with
  | nil => intro start wk; rfl
  | cons c cs ih =>
    intro start wk
    simp [groupGoSt, groupGo, sliceOp, ih]

/-! ### Lemmas about the pandas merge -/

theorem pMatch_eq_true_iff (h v : String) (b : PredRow) :
    pMatch h v b = true ↔ (h, v) = rowKey b := by
  simp [pMatch, rowKey, Prod.ext_iff]

theorem mergeRfGb_cons (a : PredRow) (rfs gb : List PredRow) :
    mergeRfGb (a :: rfs) gb =
      ((gb.filter (pMatch a.home a.visitor)).map fun b =>
        { home := a.home, visitor := a.visitor, rf := a.prob,
          gb := b.prob }) ++ mergeRfGb rfs gb := by
  simp [mergeRfGb]

theorem mergeWithLogReg_cons (a : Merged2) (ms : List Merged2)
    (lr : List PredRow) :
    mergeWithLogReg (a :: ms) lr =
      ((lr.filter (pMatch a.home a.visitor)).map fun b =>
        { home := a.home, visitor := a.visitor, rf := a.rf, gb := a.gb,
          logreg := b.prob }) ++ mergeWithLogReg ms lr := by
  simp [mergeWithLogReg]

theorem mergeWithLogReg_append (xs ys : List Merged2) (lr : List PredRow) :
    mergeWithLogReg (xs ++ ys) lr =
      mergeWithLogReg xs lr ++ mergeWithLogReg ys lr := by
  simp [mergeWithLogReg]

theorem filter_pMatch_eq_nil {h v : String} {l : List PredRow}
    (hnm : (h, v) ∉ l.map rowKey) : l.filter (pMatch h v) = [] := by
  rw [List.filter_eq_nil_iff]
  intro b hb hpb
  apply hnm
  rw [(pMatch_eq_true_iff h v b).1 hpb]
  exact List.mem_map_of_mem rowKey hb

theorem length_filter_pMatch (h v : String) :
    ∀ l : List PredRow, (l.map rowKey).Nodup →
      (l.filter (pMatch h v)).length =
        if (h, v) ∈ l.map rowKey then 1 else 0 := by
  intro l
  induction l with
  | nil => intro _; simp
  | cons b bs ih =>
    intro hnd
    rw [List.map_cons, List.nodup_cons] at hnd
    by_cases hpb : pMatch h v b = true
    · have hk : (h, v) = rowKey b := (pMatch_eq_true_iff h v b).1 hpb
      have h1 : (h, v) ∉ bs.map rowKey := by rw [hk]; exact hnd.1
      rw [List.filter_cons_of_pos hpb, List.length_cons,
        filter_pMatch_eq_nil h1]
      simp [List.mem_cons, hk]
    · have hk : (h, v) ≠ rowKey b := fun he =>
        hpb ((pMatch_eq_true_iff h v b).2 he)
      rw [List.filter_cons_of_neg hpb, ih hnd.2]
      simp [List.mem_cons, hk]

theorem map_m2Key_contribution (a : PredRow) (gb : List PredRow)
    (hgb : (gb.map rowKey).Nodup) :
    (((gb.filter (pMatch a.home a.visitor)).map fun b =>
        ({ home := a.home, visitor := a.visitor, rf := a.prob,
           gb := b.prob } : Merged2)).map m2Key) =
      if rowKey a ∈ gb.map rowKey then [rowKey a] else [] := by
  rw [List.map_map]
  have hc : (m2Key ∘ fun b : PredRow =>
      ({ home := a.home, visitor := a.visitor, rf := a.prob,
         gb := b.prob } : Merged2)) = fun _ => rowKey a := rfl
  rw [hc, List.map_const',
    length_filter_pMatch a.home a.visitor gb hgb]
  by_cases hm : rowKey a ∈ gb.map rowKey
  · have : (a.home, a.visitor) ∈ gb.map rowKey := hm
    simp [hm, this]
  · have : (a.home, a.visitor) ∉ gb.map rowKey := hm
    simp [hm, this]

theorem map_matchKey_contribution (a : Merged2) (lr : List PredRow)
    (hlr : (lr.map rowKey).Nodup) :
    (((lr.filter (pMatch a.home a.visitor)).map fun b =>
        ({ home := a.home, visitor := a.visitor, rf := a.rf, gb := a.gb,
           logreg := b.prob } : Matchup)).map matchKey) =
      if m2Key a ∈ lr.map rowKey then [m2Key a] else [] := by
  rw [List.map_map]
  have hc : (matchKey ∘ fun b : PredRow =>
      ({ home := a.home, visitor := a.visitor, rf := a.rf, gb := a.gb,
         logreg := b.prob } : Matchup)) = fun _ => m2Key a := rfl
  rw [hc, List.map_const',
    length_filter_pMatch a.home a.visitor lr hlr]
  by_cases hm : m2Key a ∈ lr.map rowKey
  · have : (a.home, a.visitor) ∈ lr.map rowKey := hm
    simp [hm, this]
  · have : (a.home, a.visitor) ∉ lr.map rowKey := hm
    simp [hm, this]

theorem mergeRfGb_map_key (gb : List PredRow)
    (hgb : (gb.map rowKey).Nodup) :
    ∀ rf : List PredRow,
      (mergeRfGb rf gb).map m2Key =
        (rf.map rowKey).flatMap fun k =>
          if k ∈ gb.map rowKey then [k] else [] := by
  intro rf
  induction rf with
  | nil => rfl
  | cons a rfs ih =>
    rw [mergeRfGb_cons, List.map_append, List.map_cons, List.flatMap_cons,
      map_m2Key_contribution a gb hgb, ih]

theorem mergeWithLogReg_map_key (lr : List PredRow)
    (hlr : (lr.map rowKey).Nodup) :
    ∀ ms : List Merged2,
      (mergeWithLogReg ms lr).map matchKey =
        (ms.map m2Key).flatMap fun k =>
          if k ∈ lr.map rowKey then [k] else [] := by
  intro ms
  induction ms with
  | nil => rfl
  | cons a rest ih =>
    rw [mergeWithLogReg_cons, List.map_append, List.map_cons,
      List.flatMap_cons, map_matchKey_contribution a lr hlr, ih]

theorem flatMap_guard_guard {β : Type} (P Q : β → Prop)
    [DecidablePred P] [DecidablePred Q] :
    ∀ L : List β,
      (L.flatMap fun k =>
        (if P k then [k] else []).flatMap fun j =>
          if Q j then [j] else []) =
      L.filter fun k => decide (P k ∧ Q k) := by
  intro L
  induction L with
  | nil => rfl
  | cons k t ih =>
    rw [List.flatMap_cons, List.filter_cons, ih]
    by_cases hP : P k
    · by_cases hQ : Q k <;> simp [hP, hQ]
    · simp [hP]

theorem merged_df_map_key (rf gb lr : List PredRow)
    (hgb : (gb.map rowKey).Nodup) (hlr : (lr.map rowKey).Nodup) :
    (merged_df rf gb lr).map matchKey =
      (rf.map rowKey).filter fun k =>
        decide (k ∈ gb.map rowKey ∧ k ∈ lr.map rowKey) := by
  rw [merged_df, mergeWithLogReg_map_key lr hlr, mergeRfGb_map_key gb hgb,
    List.flatMap_assoc,
    flatMap_guard_guard (· ∈ gb.map rowKey) (· ∈ lr.map rowKey)]

theorem mergeWithLogReg_length (lr : List PredRow) :
    ∀ ms : List Merged2,
      (mergeWithLogReg ms lr).length =
        (ms.map fun a =>
          (lr.filter (pMatch a.home a.visitor)).length).sum := by
  intro ms
  induction ms with
  | nil => rfl
  | cons a rest ih =>
    rw [mergeWithLogReg_cons, List.length_append, List.length_map, ih,
      List.map_cons, List.sum_cons]

theorem merged_df_length (gb lr : List PredRow) :
    ∀ rf : List PredRow,
      (merged_df rf gb lr).length =
        (rf.map fun a =>
          (gb.filter (pMatch a.home a.visitor)).length *
            (lr.filter (pMatch a.home a.visitor)).length).sum := by
  intro rf
  induction rf with
  | nil => rfl
  | cons a rfs ih =>
    rw [merged_df, mergeRfGb_cons, mergeWithLogReg_append, List.length_append]
    rw [show mergeWithLogReg (mergeRfGb rfs gb) lr = merged_df rfs gb lr
      from rfl, ih]
    rw [mergeWithLogReg_length, List.map_map, List.map_cons, List.sum_cons]
    congr 1
    have hc : ((fun a : Merged2 =>
        (lr.filter (pMatch a.home a.visitor)).length) ∘ fun b : PredRow =>
        ({ home := a.home, visitor := a.visitor, rf := a.prob,
           gb := b.prob } : Merged2)) =
        fun _ => (lr.filter (pMatch a.home a.visitor)).length := rfl
    rw [hc, List.map_const', List.sum_replicate, smul_eq_mul]

/-! ### Lemmas about the rounding function -/

theorem floor_le_rndHalfEven (q : ℚ) : ⌊q⌋ ≤ rndHalfEven q := by
  unfold rndHalfEven
  split
  · exact le_refl _
  · split
    · omega
    · split <;> omega

theorem le_rndHalfEven_of_le {q : ℚ} {n : ℤ} (h : (n : ℚ) ≤ q) :
    n ≤ rndHalfEven q :=
  le_trans (Int.le_floor.2 h) (floor_le_rndHalfEven q)

theorem rndHalfEven_le_of_le {q : ℚ} {n : ℤ} (h : q ≤ (n : ℚ)) :
    rndHalfEven q ≤ n := by
  have hfl : ⌊q⌋ ≤ n := (Int.floor_mono h).trans_eq (Int.floor_intCast n)
  have hkey : Int.fract q ≠ 0 → ⌊q⌋ + 1 ≤ n := by
    intro hf
    rcases lt_or_eq_of_le hfl with hlt | heq
    · omega
    · exfalso
      have hq : ((⌊q⌋ : ℚ)) + Int.fract q = q := Int.floor_add_fract q
      have hfr : 0 < Int.fract q :=
        lt_of_le_of_ne (Int.fract_nonneg q) (Ne.symm hf)
      have hlt2 : (n : ℚ) < q := by
        rw [← hq, heq]
        linarith
      have := lt_of_lt_of_le hlt2 h
      exact lt_irrefl _ this
  unfold rndHalfEven
  split
  · exact hfl
  · split
    · next h1 h2 =>
      apply hkey
      intro h0
      rw [h0] at h2
      norm_num at h2
    · split
      · exact hfl
      · next h1 h2 h3 =>
        apply hkey
        intro h0
        rw [h0] at h1
        norm_num at h1

/-! ### Claims -/

/-- C1: when the three input tables have pairwise-distinct MatchupKeys, the
merge produces exactly one merged matchup per key present in all three
tables, in the relative order of the first (RF) table, with distinct output
keys; keys missing from any source are absent. -/
theorem c1_inner_join_order (rf gb lr : List PredRow)
    (hrf : (rf.map rowKey).Nodup) (hgb : (gb.map rowKey).Nodup)
    (hlr : (lr.map rowKey).Nodup) :
    (merged_df rf gb lr).map matchKey =
      ((rf.map rowKey).filter fun k =>
        decide (k ∈ gb.map rowKey ∧ k ∈ lr.map rowKey)) ∧
    ((merged_df rf gb lr).map matchKey).Nodup := by
  have h := merged_df_map_key rf gb lr hgb hlr
  exact ⟨h, by rw [h]; exact hrf.filter _⟩

/-- Witness for C1: three concrete tables whose common key set is
{(A,B), (C,D)}; the merged keys are exactly those two, in RF order. -/
theorem c1_inner_join_order_witness :
    (merged_df [⟨"A", "B", 7/10⟩, ⟨"C", "D", 3/5⟩, ⟨"E", "F", 1/2⟩]
        [⟨"C", "D", 2/5⟩, ⟨"A", "B", 3/10⟩]
        [⟨"A", "B", 1/5⟩, ⟨"C", "D", 1/10⟩]).map matchKey =
      [("A", "B"), ("C", "D")] ∧
    (merged_df [⟨"A", "B", 7/10⟩, ⟨"C", "D", 3/5⟩, ⟨"E", "F", 1/2⟩]
        [⟨"C", "D", 2/5⟩, ⟨"A", "B", 3/10⟩]
        [⟨"A", "B", 1/5⟩, ⟨"C", "D", 1/10⟩]).map matchKey =
      ((([⟨"A", "B", 7/10⟩, ⟨"C", "D", 3/5⟩, ⟨"E", "F", 1/2⟩] :
          List PredRow).map rowKey).filter fun k =>
        decide (k ∈ ([⟨"C", "D", 2/5⟩, ⟨"A", "B", 3/10⟩] :
            List PredRow).map rowKey ∧
          k ∈ ([⟨"A", "B", 1/5⟩, ⟨"C", "D", 1/10⟩] :
            List PredRow).map rowKey)) :=
  ⟨by decide,
    (c1_inner_join_order _ _ _ (by decide) (by decide) (by decide)).1⟩

/-- C2 counterexample: on the empty merged sequence the partitioner does not
stop; it emits all 18 configured weeks, every one with an empty matchup
list, so more than one week deviates from its configured count and weeks
keep being emitted after exhaustion. -/
theorem c2_counterexample :
    (groupMatchupsByWeek ([] : List Matchup)).map
        (fun w => w.matchups.length) = List.replicate 18 0 ∧
    ¬(groupMatchupsByWeek ([] : List Matchup)).length ≤ 1 := by
  exact ⟨by decide, by decide⟩

/-- C2 amended: every emitted week's matchup list has length
min(configured count, number of matchups remaining); one week is emitted
per WeekCountTable entry, so after the merged sequence is exhausted the
remaining weeks are emitted with empty matchup lists rather than
partitioning stopping. -/
theorem c2_amended_week_lengths (xs : List Matchup) :
    (groupMatchupsByWeek xs).map (fun w => w.matchups.length) =
      minLens weekMatchupCounts xs.length := by
  rw [groupMatchupsByWeek, groupMatchupsByWeekGen, groupGo_map_len,
    Nat.sub_zero]

/-- C3: concatenating the matchups of all produced weeks, in order, yields
exactly the prefix of the merged sequence of length
min(sum of the count table, length of the sequence); matchups beyond the
total count are dropped. -/
theorem c3_concat_is_prefix (counts : List ℕ) (xs : List Matchup) :
    ((groupMatchupsByWeekGen counts xs).map (fun w => w.matchups)).flatten =
      xs.take (min counts.sum xs.length) := by
  rw [groupMatchupsByWeekGen, groupGo_join, List.drop_zero]
  exact List.take_eq_take.mpr (by omega)

/-- C4: the normalizer equals the spec formula round(p*100, 2) with ties to
even; on [0,1] inputs the result is in [0,100] and has at most two decimal
places; and it is applied to the three model scores of a merged matchup
independently, never mixing models. -/
theorem c4_normalizer_spec (p : ℚ) :
    normalizeScore p = spec_normalize p ∧
    (0 ≤ p → p ≤ 1 →
      0 ≤ normalizeScore p ∧ normalizeScore p ≤ 100 ∧
        ∃ z : ℤ, normalizeScore p = (z : ℚ) / 100) ∧
    ∀ m : Matchup,
      (normalizeRow m).rf = normalizeScore m.rf ∧
      (normalizeRow m).gb = normalizeScore m.gb ∧
      (normalizeRow m).logreg = normalizeScore m.logreg := by
  refine ⟨?_, ?_, fun m => ⟨rfl, rfl, rfl⟩⟩
  · show (rndHalfEven (p * 100 * 100) : ℚ) / 100 =
      (rndHalfEven (p * 100 * 10 ^ 2) : ℚ) / 10 ^ 2
    norm_num
  · intro h0 h1
    have hub : rndHalfEven (p * 100 * 100) ≤ (10000 : ℤ) :=
      rndHalfEven_le_of_le (by push_cast; nlinarith)
    have hlb : (0 : ℤ) ≤ rndHalfEven (p * 100 * 100) :=
      le_rndHalfEven_of_le (by push_cast; nlinarith)
    refine ⟨?_, ?_, ⟨rndHalfEven (p * 100 * 100), rfl⟩⟩
    · show (0 : ℚ) ≤ (rndHalfEven (p * 100 * 100) : ℚ) / 100
      have hc : (0 : ℚ) ≤ (rndHalfEven (p * 100 * 100) : ℚ) := by
        exact_mod_cast hlb
      linarith
    · show (rndHalfEven (p * 100 * 100) : ℚ) / 100 ≤ 100
      have hc : (rndHalfEven (p * 100 * 100) : ℚ) ≤ 10000 := by
        exact_mod_cast hub
      linarith

/-- Witness for C4 at p = 0.7321, which normalizes to 73.21. -/
theorem c4_normalizer_spec_witness :
    0 ≤ (7321/10000 : ℚ) ∧ (7321/10000 : ℚ) ≤ 1 ∧
    0 ≤ normalizeScore (7321/10000) ∧
    normalizeScore (7321/10000) ≤ 100 ∧
    normalizeScore (7321/10000) = 7321/100 :=
  ⟨by norm_num, by norm_num,
    ((c4_normalizer_spec (7321/10000)).2.1 (by norm_num) (by norm_num)).1,
    ((c4_normalizer_spec (7321/10000)).2.1 (by norm_num) (by norm_num)).2.1,
    by norm_num [normalizeScore, pyRound2, rndHalfEven, Int.fract]⟩

/-- C5 counterexample: with all three input tables empty the pipeline does
succeed with an empty merged list, but the week partitioner yields 18 weeks,
not an empty list of weeks. -/
theorem c5_counterexample :
    get_matchups [] [] [] = [] ∧
    (groupMatchupsByWeek (get_matchups [] [] [])).length = 18 ∧
    groupMatchupsByWeek (get_matchups [] [] []) ≠ [] := by
  exact ⟨rfl, by decide, by decide⟩

/-- C5 amended: with all three input tables empty the pipeline succeeds,
the merged list is empty, and the partitioner yields the full list of 18
weeks numbered 1..18, each with an empty matchups list. -/
theorem c5_amended_empty_inputs :
    get_matchups [] [] [] = [] ∧
    (groupMatchupsByWeek (get_matchups [] [] [])).map
        (fun w => (w.week, w.matchups)) =
      (List.range' 1 18).map (fun n => (n, ([] : List Matchup))) := by
  exact ⟨rfl, by decide⟩

/-- C6 counterexample: the probability 2 lies outside [0,1], yet the
pipeline raises no error and propagates 200.0 into the output. -/
theorem c6_counterexample :
    get_matchups [⟨"A", "B", 2⟩] [⟨"A", "B", 2⟩] [⟨"A", "B", 2⟩] =
      [⟨"A", "B", 200, 200, 200⟩] := by
  norm_num [get_matchups, merged_df, mergeRfGb, mergeWithLogReg, pMatch,
    normalizeRow, normalizeScore, pyRound2, rndHalfEven, Int.fract]

/-- C6 amended: the normalizer performs no validation; every input is
scaled and rounded the same way, so an out-of-range input ≥ 1 yields an
output ≥ 100, silently propagated rather than rejected. -/
theorem c6_amended_no_validation (p : ℚ) (h : 1 ≤ p) :
    100 ≤ normalizeScore p := by
  have hlb : (10000 : ℤ) ≤ rndHalfEven (p * 100 * 100) :=
    le_rndHalfEven_of_le (by push_cast; nlinarith)
  show (100 : ℚ) ≤ (rndHalfEven (p * 100 * 100) : ℚ) / 100
  have hc : (10000 : ℚ) ≤ (rndHalfEven (p * 100 * 100) : ℚ) := by
    exact_mod_cast hlb
  linarith

/-- Witness for the amended C6 at p = 2, which normalizes to 200. -/
theorem c6_amended_no_validation_witness :
    (1 : ℚ) ≤ 2 ∧ 100 ≤ normalizeScore 2 ∧ normalizeScore 2 = 200 :=
  ⟨by norm_num, c6_amended_no_validation 2 (by norm_num),
    by norm_num [normalizeScore, pyRound2, rndHalfEven, Int.fract]⟩

/-- C7 counterexample: the RF table contains the key (A,B) twice; instead
of failing, the merge succeeds and produces one output row per duplicate. -/
theorem c7_counterexample :
    get_matchups [⟨"A", "B", 7/10⟩, ⟨"A", "B", 4/5⟩] [⟨"A", "B", 3/5⟩]
        [⟨"A", "B", 1/2⟩] =
      [⟨"A", "B", 70, 60, 50⟩, ⟨"A", "B", 80, 60, 50⟩] := by
  norm_num [get_matchups, merged_df, mergeRfGb, mergeWithLogReg, pMatch,
    normalizeRow, normalizeScore, pyRound2, rndHalfEven, Int.fract]

/-- C7 amended: duplicate MatchupKeys never cause a failure; the merge is
total and produces, for each RF row, one output row per pair of matching
GB and LogReg rows (the cross product), so its length is the sum over RF
rows of the product of the match counts. -/
theorem c7_amended_duplicates_join (rf gb lr : List PredRow) :
    (merged_df rf gb lr).length =
      (rf.map fun a =>
        (gb.filter (pMatch a.home a.visitor)).length *
          (lr.filter (pMatch a.home a.visitor)).length).sum :=
  merged_df_length gb lr rf

/-- C8: for every input sequence, groupMatchupsByWeek returns exactly one
week per entry of weekMatchupCounts — 18 weeks numbered consecutively 1
through 18 — and any week whose slice range lies at or past the end of the
input has an empty matchups list. -/
theorem c8_eighteen_weeks (xs : List Matchup) :
    (groupMatchupsByWeek xs).length = 18 ∧
    (groupMatchupsByWeek xs).map (fun w => w.week) = List.range' 1 18 ∧
    ∀ (i : ℕ) (w : Week), (groupMatchupsByWeek xs)[i]? = some w →
      xs.length ≤ (weekMatchupCounts.take i).sum → w.matchups = [] := by
  have hw := groupGo_map_week xs weekMatchupCounts 0 0
  refine ⟨?_, ?_, ?_⟩
  · have hl := congrArg List.length hw
    rw [List.length_map, List.length_range'] at hl
    rw [groupMatchupsByWeek, groupMatchupsByWeekGen, hl]
    rfl
  · rw [groupMatchupsByWeek, groupMatchupsByWeekGen, hw]
    rfl
  · intro i w h hle
    rw [groupMatchupsByWeek, groupMatchupsByWeekGen] at h
    exact groupGo_get_empty xs weekMatchupCounts 0 0 i w h (by simpa using hle)

/-- Witness for C8 at the empty input: 18 weeks are emitted and week 1
(whose slice range lies past the end) has an empty matchups list. -/
theorem c8_eighteen_weeks_witness :
    (groupMatchupsByWeek ([] : List Matchup)).length = 18 ∧
    (Week.mk 1 []).matchups = [] :=
  ⟨(c8_eighteen_weeks []).1,
    (c8_eighteen_weeks []).2.2 0 ⟨1, []⟩ (by decide) (by decide)⟩

/-- C9: the deployed count table is the fixed literal summing to 272, and
every matchup placed in any week comes from the first 272 elements of the
input sequence. -/
theorem c9_table_sum_272 :
    weekMatchupCounts =
      [16, 16, 16, 16, 14, 14, 15, 16, 15, 14, 14, 13, 16, 13, 16, 16,
        16, 16] ∧
    weekMatchupCounts.sum = 272 ∧
    ∀ (xs : List Matchup) (w : Week) (m : Matchup),
      w ∈ groupMatchupsByWeek xs → m ∈ w.matchups → m ∈ xs.take 272 := by
  refine ⟨rfl, by decide, ?_⟩
  intro xs w m hw hm
  have hjoin := groupGo_join xs weekMatchupCounts 0 0
  have h272 : weekMatchupCounts.sum = 272 := by decide
  rw [List.drop_zero, h272] at hjoin
  rw [groupMatchupsByWeek, groupMatchupsByWeekGen] at hw
  have hmem : m ∈ ((groupGo xs weekMatchupCounts 0 0).map
      (fun w => w.matchups)).flatten :=
    List.mem_flatten.2 ⟨w.matchups, List.mem_map_of_mem _ hw, hm⟩
  rw [hjoin] at hmem
  exact hmem

/-- Witness for C9: a singleton input; its matchup lands in week 1 and is
indeed among the first 272 elements of the input. -/
theorem c9_table_sum_272_witness :
    (⟨1, [⟨"A", "B", 0, 0, 0⟩]⟩ : Week) ∈
        groupMatchupsByWeek [⟨"A", "B", 0, 0, 0⟩] ∧
    (⟨"A", "B", 0, 0, 0⟩ : Matchup) ∈
      ([⟨"A", "B", 0, 0, 0⟩] : List Matchup).take 272 :=
  ⟨by decide,
    c9_table_sum_272.2.2 [⟨"A", "B", 0, 0, 0⟩]
      ⟨1, [⟨"A", "B", 0, 0, 0⟩]⟩ ⟨"A", "B", 0, 0, 0⟩
      (by decide) (by decide)⟩

/-- C10: the state-passing model of groupMatchupsByWeek returns the input
array unchanged (slice is non-destructive), and produces the same weeks as
the direct function, so the original merged sequence is reusable after the
call. -/
theorem c10_input_not_mutated (xs : List Matchup) :
    (groupMatchupsByWeekSt xs).1 = xs ∧
    (groupMatchupsByWeekSt xs).2 = groupMatchupsByWeek xs := by
  rw [groupMatchupsByWeekSt, groupGoSt_eq]
  exact ⟨rfl, rfl⟩
